import Mathlib

/-!
Verification of the rank aggregation and summarization layer of the
amore_ai_agent repository: the scenario-driven mock ranking generator
(`src/backend/mock_engine/ranking_engine.py`, `src/backend/ranking/mock_provider.py`),
the history repository (`src/backend/db/repository.py`) and the aggregator /
trend functions (`src/backend/insights/analyzer.py`,
`src/backend/agent/tools/analysis_tools.py`).

Python integers are embedded as `Int`, Python float arithmetic on small
rank averages as `Rat`, fallible lookups as `Option`.  `random.randint(lo, hi)`
is embedded as an oracle function `draw : Int → Int → Int` together with the
contract `DrawInRange` stating that each draw lies in the requested interval.
-/

namespace Amore

/-- Scenario enumeration, `RankingScenario` in both
`mock_engine/ranking_engine.py` and `ranking/mock_provider.py`. -/
inductive RankingScenario where
  | BEST_SELLER
  | RISING_STAR
  | STABLE
  | DECLINING
  | COMPETITOR_SHOCK
  | NEW_ENTRY
deriving DecidableEq, Repr

/-- Python `int(q)` on a real number: truncation toward zero. -/
def truncToInt (q : ℚ) : ℤ :=
  if 0 ≤ q then ⌊q⌋ else ⌈q⌉

/-- Contract of the `random.randint` oracle: every draw lies in the requested
closed interval (Python guarantees `lo ≤ randint(lo, hi) ≤ hi`). -/
def DrawInRange (draw : ℤ → ℤ → ℤ) : Prop :=
  ∀ lo hi : ℤ, lo ≤ hi → lo ≤ draw lo hi ∧ draw lo hi ≤ hi

/-- Embeds `MockRankingEngine._apply_scenario` of
`src/backend/mock_engine/ranking_engine.py` (lines 67-115); the identical
method `MockRankingProvider._apply_scenario` of
`src/backend/ranking/mock_provider.py` (lines 81-129) is the same function.
`progress = day_index / max(total_days - 1, 1)`; each `random.randint(a, b)`
call becomes `draw a b`.  The trailing `return base_rank` of the Python code
is unreachable for the six enumeration members, which the exhaustive match
reflects. -/
def applyScenario (draw : ℤ → ℤ → ℤ) (scenario : RankingScenario)
    (day_index total_days : ℕ) (base_rank : ℤ) : ℤ :=
  let progress : ℚ := (day_index : ℚ) / ((max ((total_days : ℤ) - 1) 1 : ℤ) : ℚ)
  match scenario with
  | .BEST_SELLER => draw 1 5
  | .RISING_STAR =>
      let start_rank : ℤ := 50
      let end_rank : ℤ := draw 5 15
      let current_rank : ℤ :=
        truncToInt ((start_rank : ℚ) - ((start_rank - end_rank : ℤ) : ℚ) * progress)
      max 1 (current_rank + draw (-3) 3)
  | .STABLE => draw 15 25
  | .DECLINING =>
      let start_rank : ℤ := 10
      let end_rank : ℤ := 40
      let current_rank : ℤ :=
        truncToInt ((start_rank : ℚ) + ((end_rank - start_rank : ℤ) : ℚ) * progress)
      min 100 (current_rank + draw (-2) 5)
  | .COMPETITOR_SHOCK =>
      if progress < 3/10 then draw 10 15
      else if progress < 6/10 then draw 30 50
      else draw 15 25
  | .NEW_ENTRY =>
      if progress < 2/10 then draw 80 100
      else if progress < 1/2 then draw 40 60
      else draw 20 35

/-- The `progress` value used by `_apply_scenario`. -/
def scenarioProgress (day_index total_days : ℕ) : ℚ :=
  (day_index : ℚ) / ((max ((total_days : ℤ) - 1) 1 : ℤ) : ℚ)

lemma scenarioProgress_nonneg (d td : ℕ) : 0 ≤ scenarioProgress d td := by
  unfold scenarioProgress
  apply div_nonneg (by positivity)
  have : (1 : ℤ) ≤ max ((td : ℤ) - 1) 1 := le_max_right _ _
  exact_mod_cast le_trans zero_le_one this

lemma scenarioProgress_le_one (d td : ℕ) (h : d < td) :
    scenarioProgress d td ≤ 1 := by
  unfold scenarioProgress
  have hden : (1 : ℤ) ≤ max ((td : ℤ) - 1) 1 := le_max_right _ _
  have hdenQ : (0 : ℚ) < ((max ((td : ℤ) - 1) 1 : ℤ) : ℚ) := by
    exact_mod_cast lt_of_lt_of_le zero_lt_one hden
  rw [div_le_one hdenQ]
  have hd : (d : ℤ) ≤ max ((td : ℤ) - 1) 1 := by
    have h1 : (d : ℤ) ≤ (td : ℤ) - 1 := by
      have : (d : ℤ) < td := by exact_mod_cast h
      omega
    exact le_trans h1 (le_max_left _ _)
  exact_mod_cast hd

lemma truncToInt_bounds {lo hi : ℤ} {q : ℚ} (h0 : 0 ≤ lo)
    (h1 : (lo : ℚ) ≤ q) (h2 : q ≤ (hi : ℚ)) :
    lo ≤ truncToInt q ∧ truncToInt q ≤ hi := by
  have hq : 0 ≤ q := le_trans (by exact_mod_cast h0) h1
  unfold truncToInt
  rw [if_pos hq]
  constructor
  · exact Int.le_floor.mpr h1
  · have : (⌊q⌋ : ℚ) ≤ (hi : ℚ) := le_trans (Int.floor_le q) h2
    exact_mod_cast this

/-- Claim C9: under the `BEST_SELLER` scenario the raw (pre-re-ranking) rank
equals the fresh `randint(1, 5)` draw on every day — in particular it lies in
`[1, 5]` and does not depend on `day_index` or `total_days`.  Uniformity of
the draw itself is the contract of the `random.randint` oracle. -/
theorem claim9_best_seller_raw_rank (draw : ℤ → ℤ → ℤ) (day_index total_days : ℕ)
    (htd : 1 ≤ total_days) (hday : day_index < total_days) (hd : DrawInRange draw) :
    applyScenario draw RankingScenario.BEST_SELLER day_index total_days 50 = draw 1 5
    ∧ 1 ≤ applyScenario draw RankingScenario.BEST_SELLER day_index total_days 50
    ∧ applyScenario draw RankingScenario.BEST_SELLER day_index total_days 50 ≤ 5 := by
  have hdraw := hd 1 5 (by norm_num)
  refine ⟨rfl, ?_, ?_⟩
  · simpa [applyScenario] using hdraw.1
  · simpa [applyScenario] using hdraw.2

/-- An oracle draw that always returns the lower endpoint; it satisfies the
`randint` contract. -/
def drawLo : ℤ → ℤ → ℤ := fun lo _ => lo

lemma drawLo_inRange : DrawInRange drawLo :=
  fun lo _hi h => ⟨le_refl lo, h⟩

/-- Witness for claim C9 at `day_index = 3`, `total_days = 30`. -/
theorem claim9_best_seller_raw_rank_witness :
    applyScenario drawLo RankingScenario.BEST_SELLER 3 30 50 = drawLo 1 5
    ∧ 1 ≤ applyScenario drawLo RankingScenario.BEST_SELLER 3 30 50
    ∧ applyScenario drawLo RankingScenario.BEST_SELLER 3 30 50 ≤ 5 :=
  claim9_best_seller_raw_rank drawLo 3 30 (by norm_num) (by norm_num) drawLo_inRange

lemma applyScenario_best_seller (draw : ℤ → ℤ → ℤ) (d td : ℕ) (b : ℤ) :
    applyScenario draw RankingScenario.BEST_SELLER d td b = draw 1 5 := rfl

lemma applyScenario_rising_star (draw : ℤ → ℤ → ℤ) (d td : ℕ) (b : ℤ) :
    applyScenario draw RankingScenario.RISING_STAR d td b =
      max 1 (truncToInt ((50 : ℚ) - ((50 - draw 5 15 : ℤ) : ℚ) * scenarioProgress d td)
        + draw (-3) 3) := rfl

lemma applyScenario_stable (draw : ℤ → ℤ → ℤ) (d td : ℕ) (b : ℤ) :
    applyScenario draw RankingScenario.STABLE d td b = draw 15 25 := rfl

lemma applyScenario_declining (draw : ℤ → ℤ → ℤ) (d td : ℕ) (b : ℤ) :
    applyScenario draw RankingScenario.DECLINING d td b =
      min 100 (truncToInt ((10 : ℚ) + ((40 - 10 : ℤ) : ℚ) * scenarioProgress d td)
        + draw (-2) 5) := rfl

lemma applyScenario_competitor_shock (draw : ℤ → ℤ → ℤ) (d td : ℕ) (b : ℤ) :
    applyScenario draw RankingScenario.COMPETITOR_SHOCK d td b =
      (if scenarioProgress d td < 3/10 then draw 10 15
       else if scenarioProgress d td < 6/10 then draw 30 50
       else draw 15 25) := rfl

lemma applyScenario_new_entry (draw : ℤ → ℤ → ℤ) (d td : ℕ) (b : ℤ) :
    applyScenario draw RankingScenario.NEW_ENTRY d td b =
      (if scenarioProgress d td < 2/10 then draw 80 100
       else if scenarioProgress d td < 1/2 then draw 40 60
       else draw 20 35) := rfl

/-- Claim C10: `_apply_scenario` is total and bounded — for every scenario,
every `total_days ≥ 1` and every `day_index ∈ [0, total_days)` its result lies
in `[1, 100]` whenever the `randint` oracle honours its contract (`RISING_STAR`
is floored at 1 via `max`, `DECLINING` is capped at 100 via `min`, and every
other branch's range lies within `[1, 100]`). -/
theorem claim10_apply_scenario_bounded (draw : ℤ → ℤ → ℤ) (scenario : RankingScenario)
    (day_index total_days : ℕ) (base_rank : ℤ)
    (htd : 1 ≤ total_days) (hday : day_index < total_days) (hd : DrawInRange draw) :
    1 ≤ applyScenario draw scenario day_index total_days base_rank
    ∧ applyScenario draw scenario day_index total_days base_rank ≤ 100 := by
  have hp0 : 0 ≤ scenarioProgress day_index total_days :=
    scenarioProgress_nonneg day_index total_days
  have hp1 : scenarioProgress day_index total_days ≤ 1 :=
    scenarioProgress_le_one day_index total_days hday
  cases scenario with
  | BEST_SELLER =>
      have h := hd 1 5 (by norm_num)
      rw [applyScenario_best_seller]
      exact ⟨h.1, le_trans h.2 (by norm_num)⟩
  | RISING_STAR =>
      have hend := hd 5 15 (by norm_num)
      have hnoise := hd (-3) 3 (by norm_num)
      rw [applyScenario_rising_star]
      set p := scenarioProgress day_index total_days with hpdef
      set e := draw 5 15 with hedef
      have hmul0 : 0 ≤ ((50 - e : ℤ) : ℚ) * p := by
        apply mul_nonneg _ hp0
        have : (e : ℚ) ≤ 15 := by exact_mod_cast hend.2
        push_cast
        linarith
      have hmul45 : ((50 - e : ℤ) : ℚ) * p ≤ 45 := by
        have h50e : ((50 - e : ℤ) : ℚ) ≤ 45 := by
          have : (5 : ℚ) ≤ (e : ℚ) := by exact_mod_cast hend.1
          push_cast
          linarith
        calc ((50 - e : ℤ) : ℚ) * p ≤ 45 * p := mul_le_mul_of_nonneg_right h50e hp0
          _ ≤ 45 * 1 := mul_le_mul_of_nonneg_left hp1 (by norm_num)
          _ = 45 := by norm_num
      have htr : (5 : ℤ) ≤ truncToInt ((50 : ℚ) - ((50 - e : ℤ) : ℚ) * p)
          ∧ truncToInt ((50 : ℚ) - ((50 - e : ℤ) : ℚ) * p) ≤ (50 : ℤ) := by
        apply truncToInt_bounds (by norm_num)
        · push_cast at hmul45 ⊢
          linarith
        · push_cast at hmul0 ⊢
          linarith
      refine ⟨le_max_left 1 _, max_le (by norm_num) ?_⟩
      have h2 := htr.2
      have h3 := hnoise.2
      omega
  | STABLE =>
      have h := hd 15 25 (by norm_num)
      rw [applyScenario_stable]
      exact ⟨le_trans (by norm_num) h.1, le_trans h.2 (by norm_num)⟩
  | DECLINING =>
      have hnoise := hd (-2) 5 (by norm_num)
      rw [applyScenario_declining]
      set p := scenarioProgress day_index total_days with hpdef
      have hmul0 : 0 ≤ ((40 - 10 : ℤ) : ℚ) * p := mul_nonneg (by norm_num) hp0
      have hmul30 : ((40 - 10 : ℤ) : ℚ) * p ≤ 30 := by
        calc ((40 - 10 : ℤ) : ℚ) * p ≤ 30 * 1 := by
              push_cast
              nlinarith
          _ = 30 := by norm_num
      have htr : (10 : ℤ) ≤ truncToInt ((10 : ℚ) + ((40 - 10 : ℤ) : ℚ) * p)
          ∧ truncToInt ((10 : ℚ) + ((40 - 10 : ℤ) : ℚ) * p) ≤ (40 : ℤ) := by
        apply truncToInt_bounds (by norm_num)
        · push_cast at hmul0 ⊢
          linarith
        · push_cast at hmul30 ⊢
          linarith
      refine ⟨le_min (by norm_num) ?_, min_le_left _ _⟩
      have h2 := htr.1
      have h3 := hnoise.1
      omega
  | COMPETITOR_SHOCK =>
      have h1 := hd 10 15 (by norm_num)
      have h2 := hd 30 50 (by norm_num)
      have h3 := hd 15 25 (by norm_num)
      rw [applyScenario_competitor_shock]
      split
      · exact ⟨by omega, by omega⟩
      · split
        · exact ⟨by omega, by omega⟩
        · exact ⟨by omega, by omega⟩
  | NEW_ENTRY =>
      have h1 := hd 80 100 (by norm_num)
      have h2 := hd 40 60 (by norm_num)
      have h3 := hd 20 35 (by norm_num)
      rw [applyScenario_new_entry]
      split
      · exact ⟨by omega, by omega⟩
      · split
        · exact ⟨by omega, by omega⟩
        · exact ⟨by omega, by omega⟩

/-- Witness for claim C10: `DECLINING` at `day_index = 29`, `total_days = 30`. -/
theorem claim10_apply_scenario_bounded_witness :
    1 ≤ applyScenario drawLo RankingScenario.DECLINING 29 30 50
    ∧ applyScenario drawLo RankingScenario.DECLINING 29 30 50 ≤ 100 :=
  claim10_apply_scenario_bounded drawLo RankingScenario.DECLINING 29 30 50
    (by norm_num) (by norm_num) drawLo_inRange

/-- Boolean comparator modelling the stable Python sort
`daily_rankings.sort(key=lambda x: x["rank"])` on (original position, raw
rank) records: a stable sort by rank coincides with sorting by the
lexicographic key (rank, original position). -/
def stableLe (a b : ℕ × ℤ) : Bool :=
  decide (a.2 < b.2) || (decide (a.2 = b.2) && decide (a.1 ≤ b.1))

/-- Python `enumerate` over the day's raw ranks: (original position, raw rank)
pairs in iteration order. -/
def enumerateRaws (raws : List ℤ) : List (ℕ × ℤ) :=
  (List.range raws.length).map (fun i => (i, raws.getD i 0))

/-- The day's records sorted ascending by raw rank with stable ties
(`MockRankingEngine.generate_ranking_history` line 181). -/
def sortedRecords (raws : List ℤ) : List (ℕ × ℤ) :=
  (enumerateRaws raws).mergeSort stableLe

/-- Re-ranking loop of `generate_ranking_history` lines 182-184:
`for i, record in enumerate(daily_rankings): record["rank"] = i + 1`.
The entry for the product at sorted position `p` is
(original product position, dense rank `p + 1`). -/
def engineDayRanks (raws : List ℤ) : List (ℕ × ℕ) :=
  (List.range (sortedRecords raws).length).map
    (fun p => (((sortedRecords raws).getD p (0, 0)).1, p + 1))

/-- Strict lexicographic order on the (raw value, original position) keys. -/
abbrev keyLt (raws : List ℤ) (j i : ℕ) : Prop :=
  raws.getD j 0 < raws.getD i 0 ∨ (raws.getD j 0 = raws.getD i 0 ∧ j < i)

/-- pandas `df[col].rank(method="first").astype(int)` of
`MockRankingProvider._generate_category_rankings` lines 190-193: ordinal
ranking, ascending by value with ties broken in order of appearance; the rank
of entry `i` is one plus the number of entries whose (value, position) key is
lexicographically smaller. -/
def rankMethodFirst (raws : List ℤ) (i : ℕ) : ℕ :=
  1 + ((Finset.range raws.length).filter (fun j => keyLt raws j i)).card

lemma stableLe_trans (a b c : ℕ × ℤ) :
    stableLe a b = true → stableLe b c = true → stableLe a c = true := by
  simp only [stableLe, Bool.or_eq_true, Bool.and_eq_true, decide_eq_true_eq]
  omega

lemma stableLe_total (a b : ℕ × ℤ) : (stableLe a b || stableLe b a) = true := by
  simp only [stableLe, Bool.or_eq_true, Bool.and_eq_true, decide_eq_true_eq]
  omega

lemma enumerateRaws_length (raws : List ℤ) :
    (enumerateRaws raws).length = raws.length := by
  simp [enumerateRaws]

lemma mem_enumerateRaws {raws : List ℤ} {x : ℕ × ℤ} :
    x ∈ enumerateRaws raws ↔ x.1 < raws.length ∧ x.2 = raws.getD x.1 0 := by
  cases x with
  | mk i v =>
    simp only [enumerateRaws, List.mem_map, List.mem_range, Prod.mk.injEq]
    constructor
    · rintro ⟨a, ha, rfl, rfl⟩
      exact ⟨ha, rfl⟩
    · rintro ⟨h1, rfl⟩
      exact ⟨i, h1, rfl, rfl⟩

lemma enumerateRaws_nodup (raws : List ℤ) : (enumerateRaws raws).Nodup := by
  apply List.Nodup.map _ (List.nodup_range _)
  intro a b h
  simpa using congrArg Prod.fst h

lemma sortedRecords_perm (raws : List ℤ) :
    (sortedRecords raws).Perm (enumerateRaws raws) :=
  List.mergeSort_perm _ _

lemma sortedRecords_length (raws : List ℤ) :
    (sortedRecords raws).length = raws.length := by
  rw [(sortedRecords_perm raws).length_eq, enumerateRaws_length]

lemma sortedRecords_nodup (raws : List ℤ) : (sortedRecords raws).Nodup :=
  (sortedRecords_perm raws).symm.nodup (enumerateRaws_nodup raws)

lemma mem_sortedRecords {raws : List ℤ} {x : ℕ × ℤ} :
    x ∈ sortedRecords raws ↔ x.1 < raws.length ∧ x.2 = raws.getD x.1 0 := by
  rw [(sortedRecords_perm raws).mem_iff, mem_enumerateRaws]

lemma sortedRecords_pairwise (raws : List ℤ) :
    List.Pairwise (fun a b => stableLe a b = true) (sortedRecords raws) :=
  List.sorted_mergeSort stableLe_trans stableLe_total _

lemma getD_map_range {α β : Type} (f : α → β) (d : α) :
    ∀ l : List α, (List.range l.length).map (fun i => f (l.getD i d)) = l.map f := by
  intro l
  induction l with
  | nil => rfl
  | cons a t ih =>
      have htail : (List.range t.length).map
          ((fun i => f ((a :: t).getD i d)) ∘ Nat.succ) = t.map f := by
        rw [← ih]
        apply List.map_congr_left
        intro x _
        simp [Function.comp]
      rw [List.length_cons, List.range_succ_eq_map, List.map_cons, List.map_map, htail,
        List.getD_cons_zero, List.map_cons]

lemma engineDayRanks_map_snd (raws : List ℤ) :
    (engineDayRanks raws).map Prod.snd = List.range' 1 raws.length := by
  unfold engineDayRanks
  rw [List.map_map, List.range'_eq_map_range, sortedRecords_length]
  exact List.map_congr_left (fun a _ => by simp [Nat.add_comm])

lemma engineDayRanks_map_fst (raws : List ℤ) :
    ((engineDayRanks raws).map Prod.fst).Perm (List.range raws.length) := by
  unfold engineDayRanks
  rw [List.map_map]
  have h1 : (Prod.fst ∘ fun p => (((sortedRecords raws).getD p (0, 0)).1, p + 1))
      = fun p => ((sortedRecords raws).getD p (0, 0)).1 := rfl
  rw [h1, getD_map_range (fun x : ℕ × ℤ => x.1) (0, 0) (sortedRecords raws)]
  have h2 : ((enumerateRaws raws).map (fun x : ℕ × ℤ => x.1)) = List.range raws.length := by
    unfold enumerateRaws
    rw [List.map_map]
    have : ((fun x : ℕ × ℤ => x.1) ∘ fun i => (i, raws.getD i 0)) = id := rfl
    rw [this, List.map_id]
  rw [← h2]
  exact List.Perm.map _ (sortedRecords_perm raws)

lemma mem_engineDayRanks {raws : List ℤ} {i r : ℕ} :
    (i, r) ∈ engineDayRanks raws ↔
      ∃ p, p < (sortedRecords raws).length
        ∧ ((sortedRecords raws).getD p (0, 0)).1 = i ∧ r = p + 1 := by
  simp only [engineDayRanks, List.mem_map, List.mem_range, Prod.mk.injEq]
  constructor
  · rintro ⟨p, hp, rfl, rfl⟩
    exact ⟨p, hp, rfl, rfl⟩
  · rintro ⟨p, hp, rfl, rfl⟩
    exact ⟨p, hp, rfl, rfl⟩

lemma engineDayRanks_tie_break {raws : List ℤ} {i j ri rj : ℕ}
    (hij : i < j) (heq : raws.getD i 0 = raws.getD j 0)
    (hi : (i, ri) ∈ engineDayRanks raws) (hj : (j, rj) ∈ engineDayRanks raws) :
    ri < rj := by
  obtain ⟨p, hp, hpi, rfl⟩ := mem_engineDayRanks.mp hi
  obtain ⟨q, hq, hqj, rfl⟩ := mem_engineDayRanks.mp hj
  have hrecp : (sortedRecords raws).getD p (0, 0) ∈ sortedRecords raws := by
    rw [List.getD_eq_getElem _ _ hp]
    exact List.getElem_mem hp
  have hrecq : (sortedRecords raws).getD q (0, 0) ∈ sortedRecords raws := by
    rw [List.getD_eq_getElem _ _ hq]
    exact List.getElem_mem hq
  have hvp : ((sortedRecords raws).getD p (0, 0)).2 = raws.getD i 0 := by
    have := (mem_sortedRecords.mp hrecp).2
    rwa [hpi] at this
  have hvq : ((sortedRecords raws).getD q (0, 0)).2 = raws.getD j 0 := by
    have := (mem_sortedRecords.mp hrecq).2
    rwa [hqj] at this
  rcases lt_trichotomy p q with h | h | h
  · omega
  · exfalso
    rw [h] at hpi
    rw [hpi] at hqj
    omega
  · exfalso
    have hpair := (List.pairwise_iff_getElem.mp (sortedRecords_pairwise raws)) q p hq hp h
    rw [← List.getD_eq_getElem _ (0, 0) hq, ← List.getD_eq_getElem _ (0, 0) hp] at hpair
    simp only [stableLe, Bool.or_eq_true, Bool.and_eq_true, decide_eq_true_eq] at hpair
    rw [hvp] at hpair
    rw [hvq] at hpair
    rw [hpi, hqj] at hpair
    omega

lemma keyLt_irrefl (raws : List ℤ) (i : ℕ) : ¬ keyLt raws i i := by
  unfold keyLt
  omega

lemma rankMethodFirst_strict_mono {raws : List ℤ} {i j : ℕ}
    (hi : i < raws.length) (hj : j < raws.length) (h : keyLt raws i j) :
    rankMethodFirst raws i < rankMethodFirst raws j := by
  unfold rankMethodFirst
  have hsub : (Finset.range raws.length).filter (fun k => keyLt raws k i)
      ⊆ (Finset.range raws.length).filter (fun k => keyLt raws k j) := by
    intro k hk
    rw [Finset.mem_filter] at hk ⊢
    refine ⟨hk.1, ?_⟩
    have h1 := hk.2
    unfold keyLt at h1 h ⊢
    omega
  have hss : (Finset.range raws.length).filter (fun k => keyLt raws k i)
      ⊂ (Finset.range raws.length).filter (fun k => keyLt raws k j) := by
    rw [Finset.ssubset_iff_of_subset hsub]
    refine ⟨i, ?_, ?_⟩
    · rw [Finset.mem_filter]
      exact ⟨Finset.mem_range.mpr hi, h⟩
    · rw [Finset.mem_filter]
      intro hcon
      exact keyLt_irrefl raws i hcon.2
  have := Finset.card_lt_card hss
  omega

lemma rankMethodFirst_bounds {raws : List ℤ} {i : ℕ} (hi : i < raws.length) :
    1 ≤ rankMethodFirst raws i ∧ rankMethodFirst raws i ≤ raws.length := by
  unfold rankMethodFirst
  refine ⟨by omega, ?_⟩
  have hsub : (Finset.range raws.length).filter (fun k => keyLt raws k i)
      ⊆ (Finset.range raws.length).erase i := by
    intro k hk
    rw [Finset.mem_filter] at hk
    rw [Finset.mem_erase]
    refine ⟨?_, hk.1⟩
    intro hcon
    rw [hcon] at hk
    exact keyLt_irrefl raws i hk.2
  have hcard := Finset.card_le_card hsub
  rw [Finset.card_erase_of_mem (Finset.mem_range.mpr hi), Finset.card_range] at hcard
  omega

lemma rankMethodFirst_image (raws : List ℤ) :
    (Finset.range raws.length).image (rankMethodFirst raws)
      = Finset.Icc 1 raws.length := by
  apply Finset.eq_of_subset_of_card_le
  · intro r hr
    rw [Finset.mem_image] at hr
    obtain ⟨i, hi, rfl⟩ := hr
    rw [Finset.mem_Icc]
    exact rankMethodFirst_bounds (Finset.mem_range.mp hi)
  · have hinj : Set.InjOn (rankMethodFirst raws) ↑(Finset.range raws.length) := by
      intro a ha b hb hab
      by_contra hne
      have ha' := Finset.mem_range.mp (by simpa using ha)
      have hb' := Finset.mem_range.mp (by simpa using hb)
      have : keyLt raws a b ∨ keyLt raws b a := by
        unfold keyLt
        omega
      rcases this with h | h
      · have := rankMethodFirst_strict_mono ha' hb' h
        omega
      · have := rankMethodFirst_strict_mono hb' ha' h
        omega
    rw [Finset.card_image_of_injOn hinj, Finset.card_range, Nat.card_Icc]
    omega

/-- Claim C1: for a day's raw rank column over `N ≥ 1` products, the
re-ranking step produces a dense permutation of `1..N` with ties broken by
original iteration order, in both implementations: the engine's
stable-sort-then-enumerate (`engineDayRanks`) emits the ranks `1..N` exactly
once across the products (each product exactly once), with the
earlier-iterated product receiving the smaller rank on ties; and the
provider's `rank(method="first")` (`rankMethodFirst`) maps the `N` products
onto exactly the set `{1..N}` and breaks ties the same way. -/
theorem claim1_rerank_dense_permutation (raws : List ℤ) (hN : 1 ≤ raws.length) :
    ((engineDayRanks raws).map Prod.snd) = List.range' 1 raws.length
    ∧ ((engineDayRanks raws).map Prod.fst).Perm (List.range raws.length)
    ∧ (∀ i j ri rj, i < j → raws.getD i 0 = raws.getD j 0 →
        (i, ri) ∈ engineDayRanks raws → (j, rj) ∈ engineDayRanks raws → ri < rj)
    ∧ (Finset.range raws.length).image (rankMethodFirst raws)
        = Finset.Icc 1 raws.length
    ∧ (∀ i j, i < j → j < raws.length → raws.getD i 0 = raws.getD j 0 →
        rankMethodFirst raws i < rankMethodFirst raws j) := by
  refine ⟨engineDayRanks_map_snd raws, engineDayRanks_map_fst raws, ?_,
    rankMethodFirst_image raws, ?_⟩
  · intro i j ri rj hij heq hi hj
    exact engineDayRanks_tie_break hij heq hi hj
  · intro i j hij hj heq
    apply rankMethodFirst_strict_mono (lt_trans hij hj) hj
    unfold keyLt
    omega

/-- Witness for claim C1 on the raw column `[3, 1, 3]` (a collision and an
out-of-range raw value). -/
theorem claim1_rerank_dense_permutation_witness :
    (1 ≤ ([3, 1, 3] : List ℤ).length)
    ∧ ((engineDayRanks [3, 1, 3]).map Prod.snd) = List.range' 1 3
    ∧ (Finset.range 3).image (rankMethodFirst [3, 1, 3]) = Finset.Icc 1 3
    ∧ rankMethodFirst [3, 1, 3] 0 < rankMethodFirst [3, 1, 3] 2 := by
  have h := claim1_rerank_dense_permutation [3, 1, 3] (by norm_num)
  refine ⟨by norm_num, h.1, ?_, ?_⟩
  · have := h.2.2.2.1
    simpa using this
  · exact h.2.2.2.2 0 2 (by norm_num) (by norm_num) (by decide)

/-- A row of the rankings DataFrame handed to `save_daily_rankings`
(columns used by repository.py lines 50-59). -/
structure RankRow where
  product_id : ℤ
  product_name : String
  brand : String
  rank : ℤ
  is_laneige : Bool
  price : ℤ
deriving DecidableEq, Repr

/-- A persisted `RankingHistory` record (db/models.py): one row per
(date, category, product).  Calendar dates are embedded as integers
(day numbers), which preserves ordering and `timedelta` arithmetic. -/
structure RankingHistory where
  ranking_date : ℤ
  category : String
  product_id : ℤ
  product_name : String
  brand : String
  rank : ℤ
  is_laneige : Bool
  price : ℤ
deriving DecidableEq, Repr

/-- The `ranking_history` table in insertion (autoincrement id) order. -/
abbrev Store := List RankingHistory

/-- The record constructed by `save_daily_rankings` for one DataFrame row. -/
def toHistory (d : ℤ) (c : String) (row : RankRow) : RankingHistory :=
  { ranking_date := d, category := c, product_id := row.product_id,
    product_name := row.product_name, brand := row.brand, rank := row.rank,
    is_laneige := row.is_laneige, price := row.price }

/-- The delete filter of `save_daily_rankings`: rows whose
(ranking_date, category) matches. -/
def matchesKey (d : ℤ) (c : String) (r : RankingHistory) : Bool :=
  decide (r.ranking_date = d ∧ r.category = c)

/-- `RankingRepository.save_daily_rankings` (repository.py lines 43-65):
delete every row with matching (date, category), then insert the given rows
(appended in autoincrement order); returns the number of rows inserted. -/
def saveDailyRankings (store : Store) (ranking_date : ℤ) (category : String)
    (rankings : List RankRow) : Store × ℕ :=
  (store.filter (fun r => !(matchesKey ranking_date category r))
      ++ rankings.map (toHistory ranking_date category),
   rankings.length)

lemma matchesKey_toHistory (d : ℤ) (c : String) (row : RankRow) :
    matchesKey d c (toHistory d c row) = true := by
  simp [matchesKey, toHistory]

lemma matchesKey_toHistory_ne {d2 : ℤ} {c2 : String} {d : ℤ} {c : String}
    (h : ¬(d2 = d ∧ c2 = c)) (row : RankRow) :
    matchesKey d2 c2 (toHistory d c row) = false := by
  simp only [matchesKey, toHistory, decide_eq_false_iff_not]
  intro hcon
  exact h ⟨hcon.1.symm, hcon.2.symm⟩

lemma save_kept_rows (store : Store) (d : ℤ) (c : String) (rows : List RankRow) :
    ((saveDailyRankings store d c rows).1).filter (fun r => !(matchesKey d c r))
      = store.filter (fun r => !(matchesKey d c r)) := by
  unfold saveDailyRankings
  rw [List.filter_append]
  have h1 : (store.filter (fun r => !(matchesKey d c r))).filter
      (fun r => !(matchesKey d c r)) = store.filter (fun r => !(matchesKey d c r)) := by
    apply List.filter_eq_self.mpr
    intro a ha
    exact @List.of_mem_filter _ (fun r => !(matchesKey d c r)) a store ha
  have h2 : (rows.map (toHistory d c)).filter (fun r => !(matchesKey d c r)) = [] := by
    rw [List.filter_eq_nil_iff]
    intro a ha
    obtain ⟨row, _, rfl⟩ := List.mem_map.mp ha
    rw [matchesKey_toHistory]
    simp
  rw [h1, h2, List.append_nil]

/-- Claim C5: `save_daily_rankings` is idempotent — saving the same rows for
the same (date, category) twice in a row leaves exactly the state of a single
save; the delete-before-insert step neutralizes duplication. -/
theorem claim5_save_idempotent (store : Store) (d : ℤ) (c : String)
    (rows : List RankRow) :
    (saveDailyRankings (saveDailyRankings store d c rows).1 d c rows).1
      = (saveDailyRankings store d c rows).1 := by
  conv_lhs => rw [saveDailyRankings]
  rw [save_kept_rows]
  rfl

/-- Claim C6: `save_daily_rankings` replaces exactly its own partition —
after saving `rows1` and then `rows2` for the same (date, category), the rows
stored for that (date, category) are exactly `rows2`, rows under every other
(date, category) key are unchanged, and the call returns the number of rows
inserted. -/
theorem claim6_save_replaces_partition (store : Store) (d : ℤ) (c : String)
    (rows1 rows2 : List RankRow) :
    ((saveDailyRankings (saveDailyRankings store d c rows1).1 d c rows2).1).filter
        (matchesKey d c) = rows2.map (toHistory d c)
    ∧ (∀ d2 c2, ¬(d2 = d ∧ c2 = c) →
        ((saveDailyRankings (saveDailyRankings store d c rows1).1 d c rows2).1).filter
            (matchesKey d2 c2)
          = store.filter (matchesKey d2 c2))
    ∧ (saveDailyRankings (saveDailyRankings store d c rows1).1 d c rows2).2
        = rows2.length := by
  have hout : (saveDailyRankings (saveDailyRankings store d c rows1).1 d c rows2).1
      = store.filter (fun r => !(matchesKey d c r)) ++ rows2.map (toHistory d c) := by
    conv_lhs => rw [saveDailyRankings]
    rw [save_kept_rows]
  refine ⟨?_, ?_, rfl⟩
  · rw [hout, List.filter_append]
    have h1 : (store.filter (fun r => !(matchesKey d c r))).filter (matchesKey d c)
        = [] := by
      rw [List.filter_eq_nil_iff]
      intro a ha
      have := List.of_mem_filter ha
      simp only [Bool.not_eq_true'] at this
      simp [this]
    have h2 : (rows2.map (toHistory d c)).filter (matchesKey d c)
        = rows2.map (toHistory d c) := by
      apply List.filter_eq_self.mpr
      intro a ha
      obtain ⟨row, _, rfl⟩ := List.mem_map.mp ha
      exact matchesKey_toHistory d c row
    rw [h1, h2, List.nil_append]
  · intro d2 c2 hne
    rw [hout, List.filter_append]
    have h2 : (rows2.map (toHistory d c)).filter (matchesKey d2 c2) = [] := by
      rw [List.filter_eq_nil_iff]
      intro a ha
      obtain ⟨row, _, rfl⟩ := List.mem_map.mp ha
      rw [matchesKey_toHistory_ne hne]
      simp
    have h1 : (store.filter (fun r => !(matchesKey d c r))).filter (matchesKey d2 c2)
        = store.filter (matchesKey d2 c2) := by
      rw [List.filter_filter]
      apply List.filter_congr
      intro a _
      cases hm : matchesKey d2 c2 a with
      | false => simp [hm]
      | true =>
          have hkey : a.ranking_date = d2 ∧ a.category = c2 := by
            simpa [matchesKey] using hm
          have : matchesKey d c a = false := by
            simp only [matchesKey, decide_eq_false_iff_not]
            intro hcon
            exact hne ⟨hkey.1 ▸ hcon.1.symm ▸ rfl, hkey.2 ▸ hcon.2.symm ▸ rfl⟩
          simp [hm, this]
    rw [h1, h2, List.append_nil]

/-- Witness for claim C6 at a concrete store and row sets. -/
theorem claim6_save_replaces_partition_witness :
    (((saveDailyRankings
        (saveDailyRankings []
          0 "lip_care" [{ product_id := 1, product_name := "A", brand := "B",
                          rank := 1, is_laneige := true, price := 10 }]).1
        0 "lip_care" [{ product_id := 2, product_name := "C", brand := "B",
                        rank := 2, is_laneige := false, price := 20 }]).1).filter
      (matchesKey 1 "lip_care"))
      = ([] : Store).filter (matchesKey 1 "lip_care") :=
  (claim6_save_replaces_partition [] 0 "lip_care"
      [{ product_id := 1, product_name := "A", brand := "B",
         rank := 1, is_laneige := true, price := 10 }]
      [{ product_id := 2, product_name := "C", brand := "B",
         rank := 2, is_laneige := false, price := 20 }]).2.1
    1 "lip_care" (by simp)

/-- Boolean comparator for `ORDER BY ranking_date, category, rank`
(`get_rankings_range`, repository.py line 92; ties beyond the three sort keys
are left in insertion order, matching a stable sort). -/
def rangeOrder (a b : RankingHistory) : Bool :=
  decide (a.ranking_date < b.ranking_date)
  || (decide (a.ranking_date = b.ranking_date)
      && (decide (a.category < b.category)
          || (decide (a.category = b.category) && decide (a.rank ≤ b.rank))))

/-- `RankingRepository.get_rankings_range` with a category filter
(repository.py lines 84-92): rows with `start_date ≤ ranking_date ≤ end_date`
and the given category, ordered by (ranking_date, category, rank). -/
def getRankingsRange (store : Store) (start_date end_date : ℤ)
    (category : String) : Store :=
  (store.filter (fun r =>
      decide (start_date ≤ r.ranking_date) && decide (r.ranking_date ≤ end_date)
        && decide (r.category = category))).mergeSort rangeOrder

/-- The records loaded by `get_category_rankings_as_df` (lines 100-103):
`end_date = today`, `start_date = end_date - timedelta(days=days - 1)`. -/
def windowRecords (store : Store) (category : String) (days : ℕ) (today : ℤ) : Store :=
  getRankingsRange store (today - ((days : ℤ) - 1)) today category

/-- `date_list = sorted({r.ranking_date for r in records})` (line 109). -/
def dateListOf (records : Store) : List ℤ :=
  ((records.map (fun r => r.ranking_date)).dedup).mergeSort (fun a b => decide (a ≤ b))

/-- Position of a date in the date list; `date_to_day` (line 110) maps a date
to this position plus one. -/
def idxOf (d : ℤ) : List ℤ → ℕ
  | [] => 0
  | x :: xs => if x = d then 0 else idxOf d xs + 1

/-- The `day_i` cell of the pivoted wide table for product `p`
(`get_category_rankings_as_df` lines 112-126): iterating the ordered records,
each record writes its rank into column `day_{date_to_day[date]}` of its
product's row, a later record overwriting an earlier one; so the cell holds
the rank of the last matching record, and `none` when no record matches. -/
def dayValue (store : Store) (category : String) (days : ℕ) (today : ℤ)
    (p : String) (i : ℕ) : Option ℤ :=
  let records := windowRecords store category days today
  let dl := dateListOf records
  ((records.filter (fun r =>
      decide (r.product_name = p)
        && decide (idxOf r.ranking_date dl + 1 = i))).getLast?).map (fun r => r.rank)

/-- One `save_daily_rankings` call per day of the window
`[today - days + 1, today]`, starting from an empty store; offset `k`
(the k-th oldest day, date `today - days + 1 + k`) stores `rowsFor k`. -/
def saveWindow (rowsFor : ℕ → List RankRow) (today : ℤ) (days : ℕ)
    (c : String) : Store :=
  (List.range days).foldl
    (fun st (k : ℕ) =>
      (saveDailyRankings st (today - (days : ℤ) + 1 + (k : ℤ)) c (rowsFor k)).1) []

/-- Offsets of the window days whose row set is nonempty (the days actually
present in the store after `saveWindow`). -/
def presentOffsets (rowsFor : ℕ → List RankRow) (days : ℕ) : List ℕ :=
  (List.range days).filter (fun k => !(rowsFor k).isEmpty)

/-- The dates actually present after `saveWindow`, in chronological order. -/
def presentDays (rowsFor : ℕ → List RankRow) (today : ℤ) (days : ℕ) : List ℤ :=
  (presentOffsets rowsFor days).map (fun (k : ℕ) => today - (days : ℤ) + 1 + (k : ℤ))

lemma saveWindow_eq (rowsFor : ℕ → List RankRow) (today : ℤ) (days : ℕ) (c : String) :
    saveWindow rowsFor today days c
      = (List.range days).flatMap
          (fun k => (rowsFor k).map (toHistory (today - (days : ℤ) + 1 + k) c)) := by
  unfold saveWindow
  suffices h : ∀ m : ℕ,
      (List.range m).foldl
        (fun st (k : ℕ) =>
          (saveDailyRankings st (today - (days : ℤ) + 1 + (k : ℤ)) c (rowsFor k)).1) []
      = (List.range m).flatMap
          (fun k => (rowsFor k).map (toHistory (today - (days : ℤ) + 1 + k) c)) from
    h days
  intro m
  induction m with
  | zero => rfl
  | succ n ih =>
      rw [List.range_succ, List.foldl_append, ih, List.flatMap_append,
        List.foldl_cons, List.foldl_nil, List.flatMap_cons, List.flatMap_nil,
        List.append_nil]
      unfold saveDailyRankings
      dsimp only
      congr 1
      apply List.filter_eq_self.mpr
      intro a ha
      obtain ⟨k, hk, ha2⟩ := List.mem_flatMap.mp ha
      obtain ⟨row, _, rfl⟩ := List.mem_map.mp ha2
      have hk2 : k < n := List.mem_range.mp hk
      rw [matchesKey_toHistory_ne]
      · simp
      · intro hcon
        have := hcon.1
        omega

lemma windowRecords_saveWindow (rowsFor : ℕ → List RankRow) (today : ℤ)
    (days : ℕ) (c : String) :
    windowRecords (saveWindow rowsFor today days c) c days today
      = (saveWindow rowsFor today days c).mergeSort rangeOrder := by
  unfold windowRecords getRankingsRange
  congr 1
  apply List.filter_eq_self.mpr
  intro a ha
  rw [saveWindow_eq] at ha
  obtain ⟨k, hk, ha2⟩ := List.mem_flatMap.mp ha
  obtain ⟨row, _, rfl⟩ := List.mem_map.mp ha2
  have hk2 : k < days := List.mem_range.mp hk
  simp only [toHistory, Bool.and_eq_true, decide_eq_true_eq]
  refine ⟨⟨?_, ?_⟩, trivial⟩ <;> omega

lemma windowRecords_saveWindow_perm (rowsFor : ℕ → List RankRow) (today : ℤ)
    (days : ℕ) (c : String) :
    (windowRecords (saveWindow rowsFor today days c) c days today).Perm
      ((List.range days).flatMap
        (fun k => (rowsFor k).map (toHistory (today - (days : ℤ) + 1 + k) c))) := by
  rw [windowRecords_saveWindow, ← saveWindow_eq]
  exact List.mergeSort_perm _ _

lemma idxOf_lt_length {x : ℤ} : ∀ {l : List ℤ}, x ∈ l → idxOf x l < l.length := by
  intro l
  induction l with
  | nil => intro h; cases h
  | cons a t ih =>
      intro h
      unfold idxOf
      by_cases hax : a = x
      · rw [if_pos hax]
        simp
      · rw [if_neg hax]
        have : x ∈ t := by
          rcases List.mem_cons.mp h with h1 | h1
          · exact absurd h1.symm hax
          · exact h1
        have := ih this
        simpa using this

lemma getD_idxOf {x : ℤ} : ∀ {l : List ℤ}, x ∈ l → l.getD (idxOf x l) 0 = x := by
  intro l
  induction l with
  | nil => intro h; cases h
  | cons a t ih =>
      intro h
      unfold idxOf
      by_cases hax : a = x
      · rw [if_pos hax]
        simpa using hax
      · rw [if_neg hax]
        have hxt : x ∈ t := by
          rcases List.mem_cons.mp h with h1 | h1
          · exact absurd h1.symm hax
          · exact h1
        simpa using ih hxt

lemma idxOf_getD {l : List ℤ} (hnd : l.Nodup) :
    ∀ {j : ℕ}, j < l.length → idxOf (l.getD j 0) l = j := by
  induction l with
  | nil => intro j hj; cases hj
  | cons a t ih =>
      intro j hj
      cases j with
      | zero =>
          unfold idxOf
          simp
      | succ n =>
          have hn : n < t.length := by simpa using hj
          have hmem : t.getD n 0 ∈ t := by
            rw [List.getD_eq_getElem _ _ hn]
            exact List.getElem_mem hn
          have hne : a ≠ t.getD n 0 := by
            intro hcon
            have := (List.nodup_cons.mp hnd).1
            rw [hcon] at this
            exact this hmem
          unfold idxOf
          rw [List.getD_cons_succ, if_neg hne, ih (List.nodup_cons.mp hnd).2 hn]

lemma flatMap_single_support {α β : Type} {l : List α} {f : α → List β} {a : α}
    (hnd : l.Nodup) (ha : a ∈ l) (hz : ∀ b ∈ l, b ≠ a → f b = []) :
    l.flatMap f = f a := by
  induction l with
  | nil => cases ha
  | cons x t ih =>
      rw [List.flatMap_cons]
      rcases List.mem_cons.mp ha with rfl | hat
      · have ht : t.flatMap f = [] := by
          rw [List.flatMap_eq_nil_iff]
          intro b hb
          apply hz b (List.mem_cons_of_mem _ hb)
          intro hcon
          rw [hcon] at hb
          exact (List.nodup_cons.mp hnd).1 hb
        rw [ht, List.append_nil]
      · have hx : f x = [] := by
          apply hz x (List.mem_cons_self _ _)
          intro hcon
          rw [hcon] at hnd
          exact (List.nodup_cons.mp hnd).1 hat
        rw [hx, List.nil_append]
        exact ih (List.nodup_cons.mp hnd).2 hat
          (fun b hb hne => hz b (List.mem_cons_of_mem _ hb) hne)

lemma perm_eq_of_length_le_one {α : Type} {l₁ l₂ : List α}
    (h : l₁.Perm l₂) (hl : l₂.length ≤ 1) : l₁ = l₂ := by
  cases l₂ with
  | nil => exact h.eq_nil
  | cons a t =>
      cases t with
      | nil => exact h.eq_singleton
      | cons b u => simp at hl

lemma dateListOf_sorted (records : Store) :
    List.Pairwise (· ≤ ·) (dateListOf records) := by
  have htrans : ∀ a b c : ℤ, decide (a ≤ b) = true → decide (b ≤ c) = true
      → decide (a ≤ c) = true := by
    intro a b c h1 h2
    simp only [decide_eq_true_eq] at h1 h2 ⊢
    omega
  have htotal : ∀ a b : ℤ, (decide (a ≤ b) || decide (b ≤ a)) = true := by
    intro a b
    simp only [Bool.or_eq_true, decide_eq_true_eq]
    omega
  have h := List.sorted_mergeSort htrans htotal
    ((records.map (fun r => r.ranking_date)).dedup)
  exact h.imp (by intro a b hab; simpa using hab)

lemma dateListOf_nodup (records : Store) : (dateListOf records).Nodup :=
  (List.mergeSort_perm _ _).symm.nodup (List.nodup_dedup _)

lemma mem_dateListOf {records : Store} {x : ℤ} :
    x ∈ dateListOf records ↔ ∃ r ∈ records, r.ranking_date = x := by
  unfold dateListOf
  rw [(List.mergeSort_perm _ _).mem_iff, List.mem_dedup, List.mem_map]

lemma mem_presentOffsets {rowsFor : ℕ → List RankRow} {days k : ℕ} :
    k ∈ presentOffsets rowsFor days ↔ k < days ∧ rowsFor k ≠ [] := by
  unfold presentOffsets
  rw [List.mem_filter, List.mem_range]
  simp [List.isEmpty_iff]

lemma presentDays_pairwise (rowsFor : ℕ → List RankRow) (today : ℤ) (days : ℕ) :
    List.Pairwise (· < ·) (presentDays rowsFor today days) := by
  unfold presentDays presentOffsets
  rw [List.pairwise_map]
  apply List.Pairwise.imp _ (List.Pairwise.filter _ (List.pairwise_lt_range days))
  intro a b hab
  omega

lemma presentDays_nodup (rowsFor : ℕ → List RankRow) (today : ℤ) (days : ℕ) :
    (presentDays rowsFor today days).Nodup :=
  (presentDays_pairwise rowsFor today days).imp (fun h => ne_of_lt h)

lemma mem_presentDays {rowsFor : ℕ → List RankRow} {today : ℤ} {days : ℕ} {x : ℤ} :
    x ∈ presentDays rowsFor today days
      ↔ ∃ k : ℕ, k < days ∧ rowsFor k ≠ [] ∧ x = today - (days : ℤ) + 1 + k := by
  unfold presentDays
  rw [List.mem_map]
  constructor
  · rintro ⟨k, hk, rfl⟩
    have := mem_presentOffsets.mp hk
    exact ⟨k, this.1, this.2, rfl⟩
  · rintro ⟨k, h1, h2, rfl⟩
    exact ⟨k, mem_presentOffsets.mpr ⟨h1, h2⟩, rfl⟩

lemma mem_windowRecords_saveWindow {rowsFor : ℕ → List RankRow} {today : ℤ}
    {days : ℕ} {c : String} {r : RankingHistory} :
    r ∈ windowRecords (saveWindow rowsFor today days c) c days today
      ↔ ∃ k : ℕ, k < days ∧ ∃ row ∈ rowsFor k,
          r = toHistory (today - (days : ℤ) + 1 + k) c row := by
  rw [(windowRecords_saveWindow_perm rowsFor today days c).mem_iff]
  rw [List.mem_flatMap]
  constructor
  · rintro ⟨k, hk, hr⟩
    obtain ⟨row, hrow, rfl⟩ := List.mem_map.mp hr
    exact ⟨k, List.mem_range.mp hk, row, hrow, rfl⟩
  · rintro ⟨k, hk, row, hrow, rfl⟩
    exact ⟨k, List.mem_range.mpr hk, List.mem_map.mpr ⟨row, hrow, rfl⟩⟩

lemma dateListOf_saveWindow (rowsFor : ℕ → List RankRow) (today : ℤ) (days : ℕ)
    (c : String) :
    dateListOf (windowRecords (saveWindow rowsFor today days c) c days today)
      = presentDays rowsFor today days := by
  apply List.eq_of_perm_of_sorted _ (dateListOf_sorted _)
    ((presentDays_pairwise rowsFor today days).imp (fun h => le_of_lt h))
  apply (List.perm_ext_iff_of_nodup (dateListOf_nodup _)
    (presentDays_nodup rowsFor today days)).mpr
  intro x
  rw [mem_dateListOf, mem_presentDays]
  constructor
  · rintro ⟨r, hr, rfl⟩
    obtain ⟨k, hk, row, hrow, rfl⟩ := mem_windowRecords_saveWindow.mp hr
    exact ⟨k, hk, List.ne_nil_of_mem hrow, rfl⟩
  · rintro ⟨k, hk, hne, rfl⟩
    obtain ⟨row, hrow⟩ := List.exists_mem_of_ne_nil _ hne
    refine ⟨toHistory (today - (days : ℤ) + 1 + k) c row, ?_, rfl⟩
    exact mem_windowRecords_saveWindow.mpr ⟨k, hk, row, hrow, rfl⟩

lemma filter_names_eq_find_toList (l : List RankRow) (p : String)
    (h : (l.map (fun r => r.product_name)).Nodup) :
    l.filter (fun r => decide (r.product_name = p))
      = (l.find? (fun r => decide (r.product_name = p))).toList := by
  induction l with
  | nil => rfl
  | cons r t ih =>
      rw [List.map_cons, List.nodup_cons] at h
      by_cases hq : r.product_name = p
      · rw [List.filter_cons, if_pos (by simpa using hq),
          List.find?_cons_of_pos _ (by simpa using hq)]
        have ht : t.filter (fun x => decide (x.product_name = p)) = [] := by
          rw [List.filter_eq_nil_iff]
          intro a ha hcon
          simp only [decide_eq_true_eq] at hcon
          apply h.1
          rw [List.mem_map]
          exact ⟨a, ha, hcon.trans hq.symm⟩
        rw [ht]
        rfl
      · rw [List.filter_cons, if_neg (by simpa using hq),
          List.find?_cons_of_neg _ (by simpa using hq)]
        exact ih h.2

/-- Claim C2: round-trip through the store.  After saving one row set per day
for each day of the window `[today - days + 1, today]` (starting from an
empty store), the wide table built by `get_category_rankings_as_df`
reconstructs exactly the saved ranks: the dates present are the saved
nonempty days in chronological order, and for every position `j` in that date
list the `day_{j+1}` cell of product `p` equals the rank saved for `p` on the
`j`-th oldest date present (`none` exactly when `p` was not saved that day).
Each day's row set is assumed to carry distinct product names, the table's
uniqueness invariant. -/
theorem claim2_round_trip (rowsFor : ℕ → List RankRow) (today : ℤ) (days : ℕ)
    (c : String)
    (hnames : ∀ k, k < days → ((rowsFor k).map (fun r => r.product_name)).Nodup) :
    dateListOf (windowRecords (saveWindow rowsFor today days c) c days today)
      = presentDays rowsFor today days
    ∧ ∀ j, j < (presentOffsets rowsFor days).length → ∀ p : String,
        dayValue (saveWindow rowsFor today days c) c days today p (j + 1)
          = ((rowsFor ((presentOffsets rowsFor days).getD j 0)).find?
              (fun r => decide (r.product_name = p))).map (fun r => r.rank) := by
  refine ⟨dateListOf_saveWindow rowsFor today days c, ?_⟩
  intro j hj p
  have hdl : dateListOf (windowRecords (saveWindow rowsFor today days c) c days today)
      = presentDays rowsFor today days := dateListOf_saveWindow rowsFor today days c
  have hkjmem : (presentOffsets rowsFor days).getD j 0 ∈ presentOffsets rowsFor days := by
    rw [List.getD_eq_getElem _ _ hj]
    exact List.getElem_mem hj
  obtain ⟨hkjlt, hkjne⟩ := mem_presentOffsets.mp hkjmem
  have hjd : j < (presentDays rowsFor today days).length := by
    unfold presentDays
    rw [List.length_map]
    exact hj
  have hjd2 : j < ((presentOffsets rowsFor days).map
      (fun (k : ℕ) => today - (days : ℤ) + 1 + (k : ℤ))).length := by
    rw [List.length_map]
    exact hj
  have hdlget : (presentDays rowsFor today days).getD j 0
      = today - (days : ℤ) + 1 + ((presentOffsets rowsFor days).getD j 0 : ℤ) := by
    unfold presentDays
    rw [List.getD_eq_getElem _ _ hjd2]
    rw [List.getElem_map, List.getD_eq_getElem _ _ hj]
  have hidx_kj :
      idxOf (today - (days : ℤ) + 1 + ((presentOffsets rowsFor days).getD j 0 : ℤ))
        (dateListOf (windowRecords (saveWindow rowsFor today days c) c days today)) = j := by
    rw [hdl, ← hdlget]
    exact idxOf_getD (presentDays_nodup rowsFor today days) hjd
  have hidx_ne : ∀ k : ℕ, k < days → rowsFor k ≠ [] →
      k ≠ (presentOffsets rowsFor days).getD j 0 →
      idxOf (today - (days : ℤ) + 1 + (k : ℤ))
        (dateListOf (windowRecords (saveWindow rowsFor today days c) c days today)) ≠ j := by
    intro k hk hkne hne hcon
    rw [hdl] at hcon
    have hmem : (today - (days : ℤ) + 1 + (k : ℤ)) ∈ presentDays rowsFor today days :=
      mem_presentDays.mpr ⟨k, hk, hkne, rfl⟩
    have hgd := getD_idxOf hmem
    rw [hcon, hdlget] at hgd
    apply hne
    omega
  have hdv : dayValue (saveWindow rowsFor today days c) c days today p (j + 1)
      = (((windowRecords (saveWindow rowsFor today days c) c days today).filter
          (fun r => decide (r.product_name = p)
            && decide (idxOf r.ranking_date
                (dateListOf (windowRecords (saveWindow rowsFor today days c) c days today))
              + 1 = j + 1))).getLast?).map (fun r => r.rank) := rfl
  rw [hdv]
  have hpermf := List.Perm.filter
    (fun r => decide (r.product_name = p)
      && decide (idxOf r.ranking_date
          (dateListOf (windowRecords (saveWindow rowsFor today days c) c days today))
        + 1 = j + 1))
    (windowRecords_saveWindow_perm rowsFor today days c)
  have hflat : (((List.range days).flatMap
        (fun k => (rowsFor k).map (toHistory (today - (days : ℤ) + 1 + k) c))).filter
      (fun r => decide (r.product_name = p)
        && decide (idxOf r.ranking_date
            (dateListOf (windowRecords (saveWindow rowsFor today days c) c days today))
          + 1 = j + 1)))
      = ((rowsFor ((presentOffsets rowsFor days).getD j 0)).filter
          (fun row => decide (row.product_name = p))).map
        (toHistory (today - (days : ℤ) + 1
          + ((presentOffsets rowsFor days).getD j 0 : ℤ)) c) := by
    rw [List.filter_flatMap]
    rw [flatMap_single_support (List.nodup_range days) (List.mem_range.mpr hkjlt) ?hz]
    · rw [List.filter_map]
      congr 1
      apply List.filter_congr
      intro row _
      simp only [Function.comp, toHistory]
      simp only [hidx_kj]
      simp
    case hz =>
      intro k hk hne
      rw [List.filter_eq_nil_iff]
      intro a ha
      obtain ⟨row, hrow, rfl⟩ := List.mem_map.mp ha
      have hkne2 : rowsFor k ≠ [] := List.ne_nil_of_mem hrow
      have hidx := hidx_ne k (List.mem_range.mp hk) hkne2 hne
      simp only [toHistory, Bool.and_eq_true, decide_eq_true_eq, not_and]
      intro _
      omega
  rw [hflat, filter_names_eq_find_toList (rowsFor ((presentOffsets rowsFor days).getD j 0))
    p (hnames _ hkjlt)] at hpermf
  have hlen1 : ((((rowsFor ((presentOffsets rowsFor days).getD j 0)).find?
      (fun r => decide (r.product_name = p))).toList).map
        (toHistory (today - (days : ℤ) + 1
          + ((presentOffsets rowsFor days).getD j 0 : ℤ)) c)).length ≤ 1 := by
    cases hcase : (rowsFor ((presentOffsets rowsFor days).getD j 0)).find?
        (fun r => decide (r.product_name = p)) with
    | none => simp [hcase, Option.toList]
    | some r0 => simp [hcase, Option.toList]
  have heq := perm_eq_of_length_le_one hpermf hlen1
  rw [heq]
  cases hcase : (rowsFor ((presentOffsets rowsFor days).getD j 0)).find?
      (fun r => decide (r.product_name = p)) with
  | none => simp [Option.toList]
  | some r0 => simp [Option.toList, toHistory]


/-- A one-product-per-day window used as a concrete round-trip instance. -/
def c2RowsFor : ℕ → List RankRow := fun k =>
  [{ product_id := 0, product_name := "A", brand := "LANEIGE",
     rank := (k : ℤ), is_laneige := true, price := 0 }]

/-- Witness for claim C2: a two-day window saved and read back; the `day_1`
cell of product `A` is the rank saved on the oldest day. -/
theorem claim2_round_trip_witness :
    dayValue (saveWindow c2RowsFor 10 2 "lip_care") "lip_care" 2 10 "A" 1
      = some 0 := by
  have h := claim2_round_trip c2RowsFor 10 2 "lip_care"
    (fun k _ => by simp [c2RowsFor])
  have h2 := h.2 0 (by decide) "A"
  exact h2.trans (by decide)


/-- Python `round(q)`: round-half-to-even (banker's rounding). -/
def pyRound (q : ℚ) : ℤ :=
  if q - ⌊q⌋ < 1/2 then ⌊q⌋
  else if 1/2 < q - ⌊q⌋ then ⌊q⌋ + 1
  else if Even ⌊q⌋ then ⌊q⌋ else ⌊q⌋ + 1

/-- Python `round(q, 1)`. -/
def round1 (q : ℚ) : ℚ := ((pyRound (q * 10) : ℤ) : ℚ) / 10

/-- The dictionary returned by `get_product_history`
(repository.py lines 211-222), as a fixed-field record.  Dates are embedded
as integers, so the `dates` field holds the day numbers rather than ISO
strings. -/
structure ProductHistory where
  product_name : String
  category : String
  brand : String
  is_laneige : Bool
  rankings : List ℤ
  dates : List ℤ
  avg_rank : ℚ
  best_rank : ℤ
  worst_rank : ℤ
  trend : String
deriving DecidableEq, Repr

/-- Builds the result of `get_product_history` from the date-ordered records:
`None` when no records, otherwise the statistics dictionary with
`trend = "rising" if ranks[-1] < ranks[0] else "declining"`
(repository.py lines 206-222). -/
def mkProductHistory (product_name : String) : Store → Option ProductHistory
  | [] => none
  | r0 :: rest =>
      some { product_name := product_name,
             category := r0.category,
             brand := r0.brand,
             is_laneige := r0.is_laneige,
             rankings := (r0 :: rest).map (fun r => r.rank),
             dates := (r0 :: rest).map (fun r => r.ranking_date),
             avg_rank := round1 ((((r0 :: rest).map (fun r => r.rank)).sum : ℚ)
               / ((r0 :: rest).length : ℚ)),
             best_rank := rest.foldl (fun m r => min m r.rank) r0.rank,
             worst_rank := rest.foldl (fun m r => max m r.rank) r0.rank,
             trend := if (rest.getLastD r0).rank < r0.rank
               then "rising" else "declining" }

/-- `RankingRepository.get_product_history` (repository.py lines 191-222):
exact-name match within `[today - (days-1), today]`, ordered by date. -/
def getProductHistory (store : Store) (product_name : String) (days : ℕ)
    (today : ℤ) : Option ProductHistory :=
  mkProductHistory product_name
    ((store.filter (fun r =>
        decide (r.product_name = product_name)
          && decide (today - ((days : ℤ) - 1) ≤ r.ranking_date)
          && decide (r.ranking_date ≤ today))).mergeSort
      (fun a b => decide (a.ranking_date ≤ b.ranking_date)))

lemma getLastD_map_cons {α β : Type} (f : α → β) :
    ∀ (l : List α) (a : α) (d : β), ((a :: l).map f).getLastD d = f (l.getLastD a)
  | [], _, _ => rfl
  | b :: t, a, d => by
      calc ((a :: b :: t).map f).getLastD d
          = ((b :: t).map f).getLastD (f a) := by
            rw [List.map_cons, List.getLastD_cons]
        _ = f (t.getLastD b) := getLastD_map_cons f t b (f a)
        _ = f ((b :: t).getLastD a) := by rw [List.getLastD_cons]

lemma mkProductHistory_spec (p : String) (L : Store) (h : ProductHistory)
    (hsome : mkProductHistory p L = some h) :
    h.rankings ≠ []
    ∧ h.trend = (if h.rankings.getLastD 0 < h.rankings.headD 0
        then "rising" else "declining") := by
  cases L with
  | nil => simp [mkProductHistory] at hsome
  | cons r0 rest =>
      simp only [mkProductHistory, Option.some_inj] at hsome
      subst hsome
      refine ⟨by simp, ?_⟩
      rw [getLastD_map_cons]
      rw [List.map_cons, List.headD_cons]

/-- Claim C3 (amended): `get_product_history` returns `None` exactly when no
row matches the product name inside the date window; when it returns a
result, the rankings are nonempty and the trend is always the endpoint
comparison `"rising" if ranks[-1] < ranks[0] else "declining"` — there is no
"insufficient data" marker for histories of fewer than 7 points (that message
is produced by the `analyze_trend` tool wrapping this function, not by
`get_product_history` itself). -/
theorem claim3_product_history_amended (store : Store) (p : String) (days : ℕ)
    (today : ℤ) :
    ((∀ r ∈ store, ¬(r.product_name = p ∧ today - ((days : ℤ) - 1) ≤ r.ranking_date
        ∧ r.ranking_date ≤ today)) →
      getProductHistory store p days today = none)
    ∧ (∀ h, getProductHistory store p days today = some h →
        h.rankings ≠ []
        ∧ h.trend = (if h.rankings.getLastD 0 < h.rankings.headD 0
            then "rising" else "declining")) := by
  constructor
  · intro hempty
    unfold getProductHistory
    have hfil : store.filter (fun r =>
        decide (r.product_name = p)
          && decide (today - ((days : ℤ) - 1) ≤ r.ranking_date)
          && decide (r.ranking_date ≤ today)) = [] := by
      rw [List.filter_eq_nil_iff]
      intro a ha hcon
      simp only [Bool.and_eq_true, decide_eq_true_eq] at hcon
      exact hempty a ha ⟨hcon.1.1, hcon.1.2, hcon.2⟩
    rw [hfil]
    rw [(List.mergeSort_perm ([] : Store) _).eq_nil]
    rfl
  · intro h hsome
    exact mkProductHistory_spec p _ h hsome

/-- The single stored record used in the C3 counterexample. -/
def c3Rec : RankingHistory :=
  { ranking_date := 0, category := "lip_care", product_id := 1,
    product_name := "X", brand := "B", rank := 5, is_laneige := true, price := 0 }

lemma getProductHistory_singleton (r : RankingHistory) (p : String) (days : ℕ)
    (today : ℤ)
    (hm : r.product_name = p ∧ today - ((days : ℤ) - 1) ≤ r.ranking_date
      ∧ r.ranking_date ≤ today) :
    getProductHistory [r] p days today = mkProductHistory p [r] := by
  unfold getProductHistory
  have hfil : ([r] : Store).filter (fun x =>
      decide (x.product_name = p)
        && decide (today - ((days : ℤ) - 1) ≤ x.ranking_date)
        && decide (x.ranking_date ≤ today)) = [r] := by
    apply List.filter_eq_self.mpr
    intro a ha
    simp only [List.mem_singleton] at ha
    subst ha
    simp [hm.1, hm.2.1, hm.2.2]
  rw [hfil]
  congr 1
  exact (List.mergeSort_perm _ _).eq_singleton

/-- The concrete history record produced for `c3Rec`. -/
def c3Hist : ProductHistory :=
  { product_name := "X", category := "lip_care", brand := "B",
    is_laneige := true, rankings := [5], dates := [0], avg_rank := 5,
    best_rank := 5, worst_rank := 5, trend := "declining" }

lemma c3_eval : getProductHistory [c3Rec] "X" 30 0 = some c3Hist := by
  rw [getProductHistory_singleton c3Rec "X" 30 0 (by refine ⟨rfl, ?_, ?_⟩ <;> norm_num [c3Rec])]
  simp only [mkProductHistory, c3Rec, c3Hist, Option.some_inj]
  norm_num [round1, pyRound]

/-- Counterexample to claim C3 as stated: a history with a single point
(fewer than 7) comes back with `trend = "declining"`, the same label an
actually declining series gets — not an "insufficient data" marker. -/
theorem claim3_counterexample :
    (getProductHistory [c3Rec] "X" 30 0).map (fun h => h.trend) = some "declining"
    ∧ (getProductHistory [c3Rec] "X" 30 0).map (fun h => h.rankings.length) = some 1
    ∧ ("declining" : String) ≠ "insufficient data" := by
  refine ⟨?_, ?_, by decide⟩ <;> rw [c3_eval] <;> rfl

/-- Witness for claim C3 (amended) at an empty store and at `[c3Rec]`. -/
theorem claim3_product_history_amended_witness :
    getProductHistory [] "X" 30 0 = none ∧ c3Hist.rankings ≠ [] :=
  ⟨(claim3_product_history_amended [] "X" 30 0).1 (by simp),
   ((claim3_product_history_amended [c3Rec] "X" 30 0).2 c3Hist c3_eval).1⟩


/-- Trend computation of `InsightAnalyzer._summarize_ranking_data`
(analyzer.py lines 131-139): with at least 14 points compare the mean of the
last 7 values against the mean of the previous 7 — "상승" (rising) when the
recent mean is strictly lower, "하락" (falling) when strictly higher, else
"유지" (stable); with fewer than 14 points the trend is "데이터 부족"
(insufficient data). -/
def analyzerTrend (rankings : List ℚ) : String :=
  if 14 ≤ rankings.length then
    let recent_avg := ((rankings.drop (rankings.length - 7)).sum) / 7
    let prev_avg := (((rankings.drop (rankings.length - 14)).take 7).sum) / 7
    if recent_avg < prev_avg then "상승"
    else if prev_avg < recent_avg then "하락"
    else "유지"
  else "데이터 부족"

/-- Trend label of the `analyze_trend` tool (analysis_tools.py lines 93-119):
below 7 points it reports the insufficient-data message; otherwise it
compares the mean of the last 7 points against the mean of the first 7
(when at least 14 points) or of all but the last 7 (when 7..13 points), and
labels the change with four thresholds. -/
def analyzeTrendLabel (rankings : List ℚ) : String :=
  if rankings.length < 7 then "트렌드 분석에 충분한 데이터가 없습니다 (최소 7일 필요)."
  else
    let recent_avg := ((rankings.drop (rankings.length - 7)).sum) / 7
    let older_avg :=
      if 14 ≤ rankings.length then ((rankings.take 7).sum) / 7
      else ((rankings.take (rankings.length - 7)).sum)
        / ((max 1 (rankings.length - 7) : ℕ) : ℚ)
    let change := older_avg - recent_avg
    if 2 < change then "📈 상승세"
    else if 0 < change then "📊 소폭 상승"
    else if -2 < change then "📊 보합세"
    else "📉 하락세"

/-- Counterexample to claim C4 as stated: on a 10-point sequence whose last
value is below its first, the analyzer reports "데이터 부족" instead of
comparing endpoints; and on a 10-point sequence with equal endpoints (which
endpoint comparison would label declining) the tool reports a slight-rise
label, because it compares 7-point window means, not endpoints. -/
theorem claim4_counterexample :
    ([(5 : ℚ), 5, 5, 5, 5, 5, 5, 5, 5, 1].length < 14
      ∧ 7 ≤ [(5 : ℚ), 5, 5, 5, 5, 5, 5, 5, 5, 1].length)
    ∧ analyzerTrend [(5 : ℚ), 5, 5, 5, 5, 5, 5, 5, 5, 1] = "데이터 부족"
    ∧ analyzeTrendLabel [(9 : ℚ), 1, 1, 1, 1, 1, 1, 1, 1, 9] = "📊 소폭 상승" := by
  refine ⟨by norm_num, by decide, ?_⟩
  norm_num [analyzeTrendLabel]

/-- Claim C4 (amended): the analyzer's classifier labels "상승" (rising)
exactly when there are at least 14 points and the mean (equivalently sum) of
the last 7 is strictly lower than that of the previous 7, and labels
"데이터 부족" (insufficient data) for every sequence of fewer than 14 points
— it never compares endpoints; the 7-point insufficient-data floor belongs to
the `analyze_trend` tool. -/
theorem claim4_trend_classifier_amended (l : List ℚ) :
    (analyzerTrend l = "상승" ↔ 14 ≤ l.length
        ∧ (l.drop (l.length - 7)).sum < ((l.drop (l.length - 14)).take 7).sum)
    ∧ (l.length < 14 → analyzerTrend l = "데이터 부족")
    ∧ (l.length < 7 → analyzeTrendLabel l
        = "트렌드 분석에 충분한 데이터가 없습니다 (최소 7일 필요).") := by
  refine ⟨?_, ?_, ?_⟩
  · by_cases h14 : 14 ≤ l.length
    · simp only [analyzerTrend, if_pos h14]
      by_cases hlt : (l.drop (l.length - 7)).sum / 7
          < ((l.drop (l.length - 14)).take 7).sum / 7
      · rw [if_pos hlt]
        constructor
        · intro _
          exact ⟨h14, by linarith⟩
        · intro _
          rfl
      · rw [if_neg hlt]
        constructor
        · intro hcon
          exfalso
          revert hcon
          split
          · intro hcon
            exact absurd hcon (by decide)
          · intro hcon
            exact absurd hcon (by decide)
        · rintro ⟨_, hsum⟩
          exfalso
          apply hlt
          linarith
    · simp only [analyzerTrend, if_neg h14]
      constructor
      · intro hcon
        exact absurd hcon (by decide)
      · rintro ⟨hc, _⟩
        exact absurd hc h14
  · intro h14
    simp only [analyzerTrend, if_neg (by omega : ¬ 14 ≤ l.length)]
  · intro h7
    simp only [analyzeTrendLabel, if_pos h7]

/-- Witness for claim C4 (amended) on the 3-point sequence `[1, 2, 3]`. -/
theorem claim4_trend_classifier_amended_witness :
    analyzerTrend [(1 : ℚ), 2, 3] = "데이터 부족"
    ∧ analyzeTrendLabel [(1 : ℚ), 2, 3]
      = "트렌드 분석에 충분한 데이터가 없습니다 (최소 7일 필요)." :=
  ⟨(claim4_trend_classifier_amended [1, 2, 3]).2.1 (by norm_num),
   (claim4_trend_classifier_amended [1, 2, 3]).2.2 (by norm_num)⟩

/-- Per-product statistics of `get_laneige_summary`
(repository.py lines 249-257). -/
structure SummaryStats where
  avg_rank : ℚ
  best_rank : ℤ
  worst_rank : ℤ
  current_rank : Option ℤ
  trend : String
  top5_days : ℕ
  top10_days : ℕ
deriving DecidableEq, Repr

/-- The summary entry `get_laneige_summary` computes for one product's rank
sequence (repository.py lines 242-257): a product whose rank list is empty is
skipped (`continue`), i.e. omitted from the summary — embedded as `none`. -/
def laneigeSummaryEntry : List ℤ → Option SummaryStats
  | [] => none
  | r :: rest =>
      some { avg_rank := round1 (((r :: rest).sum : ℚ) / ((r :: rest).length : ℚ)),
             best_rank := rest.foldl min r,
             worst_rank := rest.foldl max r,
             current_rank := some (rest.getLastD r),
             trend := if 1 < (r :: rest).length ∧ rest.getLastD r < r
               then "rising" else "declining",
             top5_days := (r :: rest).countP (fun x => decide (x ≤ 5)),
             top10_days := (r :: rest).countP (fun x => decide (x ≤ 10)) }

/-- `InsightAnalyzer._calculate_top5_stats` (analyzer.py lines 426-440) over
the focus-brand products' rank sequences: returns (total, top5 count, rate);
a product with an empty rank list is counted in the total but the
mean-rank check is short-circuited by the `rankings and ...` guard, and the
rate falls back to 0 when the total is 0. -/
def calculateTop5Stats (products : List (List ℚ)) : ℕ × ℕ × ℚ :=
  let total := products.length
  let top5 := products.countP (fun rankings =>
    !rankings.isEmpty && decide (rankings.sum / (rankings.length : ℚ) ≤ 5))
  (total, top5, if 0 < total then (top5 : ℚ) / (total : ℚ) * 100 else 0)

/-- One week bucket of `InsightAnalyzer._generate_performance_chart`
(analyzer.py lines 442-467): average rank and TOP-5 hit rate of the bucket,
each guarded to 0 when the bucket is empty. -/
def weekBucketStats (week_ranks : List ℚ) : ℚ × ℚ :=
  let avg : ℚ := if week_ranks = [] then 0
    else week_ranks.sum / (week_ranks.length : ℚ)
  let top5_rate : ℚ := if week_ranks = [] then 0
    else ((week_ranks.countP (fun r => decide (r ≤ 5)) : ℕ) : ℚ)
      / (week_ranks.length : ℚ) * 100
  (round1 avg, ((pyRound top5_rate : ℤ) : ℚ))

/-- Claim C7: no aggregator divides by an empty rank sequence's length — each
one signals "no data": the per-product summary omits the product (`none`),
the weekly chart bucket reports zeros, the TOP-5 statistics report zeros on
no products, and a product with an empty rank sequence never counts toward
the TOP-5 numerator. -/
theorem claim7_empty_ranks_no_division (products1 products2 : List (List ℚ)) :
    laneigeSummaryEntry [] = none
    ∧ weekBucketStats [] = (0, 0)
    ∧ calculateTop5Stats [] = (0, 0, 0)
    ∧ (calculateTop5Stats (products1 ++ [] :: products2)).2.1
        = (calculateTop5Stats (products1 ++ products2)).2.1 := by
  refine ⟨rfl, by norm_num [weekBucketStats, round1, pyRound], by decide, ?_⟩
  simp [calculateTop5Stats, List.countP_append, List.countP_cons]

/-- `sum(1 for r in ranks if r <= k)`, the TOP-k day counter of
`get_laneige_summary` (repository.py lines 255-256) and
`MockRankingEngine.get_laneige_summary` (ranking_engine.py lines 239-240). -/
def topKDays (ranks : List ℤ) (k : ℤ) : ℕ :=
  ranks.countP (fun r => decide (r ≤ k))

/-- Claim C8: `top_k_days` is monotonic in k — for every rank sequence the
TOP-10 day count is at least the TOP-5 day count, and accordingly every
summary entry of `get_laneige_summary` has `top5_days ≤ top10_days`. -/
theorem claim8_topk_monotonic (ranks : List ℤ) :
    topKDays ranks 5 ≤ topKDays ranks 10
    ∧ (∀ entry, laneigeSummaryEntry ranks = some entry →
        entry.top5_days ≤ entry.top10_days) := by
  have hmono : ∀ l : List ℤ, l.countP (fun r => decide (r ≤ (5 : ℤ)))
      ≤ l.countP (fun r => decide (r ≤ (10 : ℤ))) := by
    intro l
    apply List.countP_mono_left
    intro x _ hx
    simp only [decide_eq_true_eq] at hx ⊢
    omega
  refine ⟨hmono ranks, ?_⟩
  intro entry hentry
  cases ranks with
  | nil => simp [laneigeSummaryEntry] at hentry
  | cons r rest =>
      simp only [laneigeSummaryEntry, Option.some_inj] at hentry
      subst hentry
      exact hmono (r :: rest)

/-- The summary entry for the one-day rank sequence `[3]`. -/
def c8Entry : SummaryStats :=
  { avg_rank := 3, best_rank := 3, worst_rank := 3, current_rank := some 3,
    trend := "declining", top5_days := 1, top10_days := 1 }

/-- Witness for claim C8 on the rank sequence `[3]`. -/
theorem claim8_topk_monotonic_witness :
    topKDays [3] 5 ≤ topKDays [3] 10 ∧ c8Entry.top5_days ≤ c8Entry.top10_days :=
  ⟨(claim8_topk_monotonic [3]).1,
   (claim8_topk_monotonic [3]).2 c8Entry
     (by norm_num [laneigeSummaryEntry, c8Entry, round1, pyRound])⟩


end Amore
